import Mathlib

/-!
Verification of `menpo/math/decomposition.py` (batch and incremental PCA).

The source operates on dense numpy float arrays.  We embed it shallowly:

* a data matrix is a `List (List ℚ)` of rows, scalars are exact rationals;
* the external LAPACK routines `np.linalg.eigh`, `np.linalg.qr`,
  `np.linalg.svd` and the numeric primitive `np.sqrt` are opaque to the
  source, so they enter the embedding as function parameters; theorems
  quantify over them (adding, where a claim needs it, the shape facts that
  the routines guarantee, e.g. `eigh` of an `N × N` matrix returns `N`
  eigenvalues);
* numpy raises a real Python exception only at reductions over empty
  arrays (`np.max([])`); those points are embedded in `Except`.  Scalar
  division by zero in numpy is *not* an exception (it emits a warning and
  produces non-finite junk values); rational division by zero in Lean
  yields the junk value `0`, which plays the same role: it is only ever
  produced on runs whose float counterpart produces `inf`/`nan`, and the
  theorems below use it only to witness that no exception is raised on
  such runs, never to assert anything about the junk values themselves.
-/

namespace Menpo

abbrev Vec := List ℚ

abbrev Mat := List Vec

/-- Dot product of two rows (`np.dot` on vectors). -/
def dotV (v w : Vec) : ℚ := (List.zipWith (· * ·) v w).sum

/-- Transpose of a row-major matrix (`ndarray.T`).  The column count is read
off the first row, as numpy reads it off the shape. -/
def tr (M : Mat) : Mat :=
  match M with
  | [] => []
  | r :: _ => (List.range r.length).map (fun j => M.map (fun row => row.getD j 0))

/-- Number of columns of a row-major matrix (`X.shape[1]`; `0` for a matrix
with no rows, where every code path below fails before the value matters). -/
def numCols (M : Mat) : ℕ := (M.head?.map List.length).getD 0

/-- Matrix product `np.dot(A, B)`. -/
def matMul (A B : Mat) : Mat := A.map (fun r => (tr B).map (fun c => dotV r c))

/-- Scale every entry of a row (broadcast scalar multiplication). -/
def smulRow (c : ℚ) (v : Vec) : Vec := v.map (fun x => c * x)

/-- Scale every entry of a matrix (broadcast `*` / `/` by a scalar). -/
def matScale (c : ℚ) (M : Mat) : Mat := M.map (smulRow c)

/-- Elementwise sum of two rows. -/
def addV (v w : Vec) : Vec := List.zipWith (· + ·) v w

/-- Elementwise difference of two rows. -/
def subV (v w : Vec) : Vec := List.zipWith (· - ·) v w

/-- Elementwise sum of two matrices (`A + B`). -/
def matAdd (A B : Mat) : Mat := List.zipWith addV A B

/-- Elementwise difference of two matrices (`A - B`). -/
def matSub (A B : Mat) : Mat := List.zipWith subV A B

/-- Broadcast subtraction of a row vector from every row (`X - m`). -/
def rowsSubV (M : Mat) (v : Vec) : Mat := M.map (fun r => subV r v)

/-- Zero vector `np.zeros(d)`. -/
def zeros (d : ℕ) : Vec := List.replicate d 0

/-- Zero matrix `np.zeros((r, c))`. -/
def zerosM (r c : ℕ) : Mat := List.replicate r (zeros c)

/-- Column-wise sum of a matrix. -/
def colSum (M : Mat) : Vec :=
  match M with
  | [] => []
  | r :: rest => rest.foldl addV r

/-- Column-wise mean `np.mean(X, axis=0)`.  For a matrix with zero rows numpy
emits a warning and yields a NaN vector (no exception); here the division by
the row count `0` yields the rational junk value, and every `pca` run on a
zero-row matrix fails later at the empty reduction before the mean is used. -/
def colMean (M : Mat) : Vec := (colSum M).map (fun x => x / (M.length : ℚ))

/-- Diagonal matrix `np.diag(v)`. -/
def diag (v : Vec) : Mat :=
  (List.range v.length).map
    (fun i => (List.range v.length).map (fun j => if i = j then v.getD i 0 else 0))

/-- Horizontal stacking `np.hstack` of two blocks with the same row count. -/
def hstack (A B : Mat) : Mat := List.zipWith (· ++ ·) A B

/-- Maximum of the absolute values, `np.max(np.abs(l))`; numpy raises
`ValueError` on an empty array, embedded as `none`. -/
def maxAbs (l : List ℚ) : Option ℚ :=
  match l with
  | [] => none
  | x :: xs => some (xs.foldl (fun a b => max a |b|) |x|)

/-- The comparison used to order eigenpairs by eigenvalue descending
(`np.argsort(eigenvalues)[::-1]` applied jointly to eigenvalues and
eigenvector columns).  Ties between equal eigenvalues may be broken in a
different order than numpy's, which permutes only eigenvectors belonging to
equal eigenvalues and affects none of the stated properties. -/
def geOnFst (p q : ℚ × Vec) : Prop := q.1 ≤ p.1

instance : DecidableRel geOnFst := fun p q => decidable_of_iff (q.1 ≤ p.1) Iff.rfl

instance : IsTotal (ℚ × Vec) geOnFst := ⟨fun a b => le_total b.1 a.1⟩

instance : IsTrans (ℚ × Vec) geOnFst := ⟨fun _ _ _ hab hbc => le_trans hbc hab⟩

/-- Source lines 31-46: the sorting and the two filters of
`eigenvalue_decomposition`, applied to eigenvalue/eigenvector-column pairs:
sort the eigenpairs by eigenvalue descending, keep those with positive
eigenvalue, then keep those whose eigenvalue exceeds `limit`. -/
def edFiltered (evs : List ℚ) (V : Mat) (limit : ℚ) : List (ℚ × Vec) :=
  (((evs.zip (tr V)).insertionSort geOnFst).filter
      (fun p => decide (0 < p.1))).filter (fun p => decide (limit < p.1))

/-- Source lines 29-48.  `eigenvalue_decomposition(C, eps)` after the opaque
`np.linalg.eigh(C)` call: its input here is the pair
`(eigenvalues, eigenvectors)` returned by `eigh` (eigenvectors as the columns
of the second component).  The body sorts the eigenpairs by eigenvalue
descending, computes `limit = np.max(np.abs(eigenvalues)) * eps`, keeps the
pairs with positive eigenvalue, then keeps those exceeding `limit`, and
returns the kept eigenvectors (as columns) and eigenvalues.  `np.max` of an
empty eigenvalue array raises `ValueError`. -/
def eigenvalue_decomposition (out : List ℚ × Mat) (eps : ℚ) :
    Except String (Mat × List ℚ) :=
  match maxAbs out.1 with
  | none => .error "zero-size array to reduction operation maximum"
  | some mx =>
    .ok (tr ((edFiltered out.1 out.2 (mx * eps)).map Prod.snd),
      (edFiltered out.1 out.2 (mx * eps)).map Prod.fst)

/-- Source lines 83-88: the subtracted mean, the column mean when `centre`
and the zero vector otherwise. -/
def meanOf (X : Mat) (centre : Bool) : Vec :=
  if centre then colMean X else zeros (numCols X)

/-- Source lines 96-120: the symmetrized covariance/Gram matrix that `pca`
feeds to the eigensolver: `Xᵗ X / (n-1)` when `d < n`, `X Xᵗ / (n-1)`
otherwise, then `(C + Cᵗ) / 2`.  Over ℚ the scalar `1 / (n - 1)` is the junk
value `0` when `n = 1`, mirroring numpy's non-raising division by zero. -/
def pcaCov (X : Mat) (centre : Bool) : Mat :=
  let n := X.length
  let d := numCols X
  let Xc := rowsSubV X (meanOf X centre)
  let C := matScale (1 / ((n : ℚ) - 1))
    (if d < n then matMul (tr Xc) Xc else matMul Xc (tr Xc))
  matScale (1 / 2) (matAdd C (tr C))

/-- Source line 129, the dual-regime scaling `w = np.sqrt(1.0 / ((n - 1) * l))`.
The scaling is mathematically undefined when `(n - 1) * l_i ≤ 0` (division by
zero or square root of a non-positive number); that case is embedded as an
error so that its unreachability can be stated. -/
def wE (sq : ℚ → ℚ) (l : List ℚ) (n : ℕ) : Except String (List ℚ) :=
  match l with
  | [] => .ok []
  | li :: rest =>
    if ((n : ℚ) - 1) * li ≤ 0 then .error "invalid value encountered in sqrt"
    else
      match wE sq rest n with
      | .error e => .error e
      | .ok ws => .ok (sq (1 / (((n : ℚ) - 1) * li)) :: ws)

/-- Modelled from the spec: `dot_inplace_right` (imported from
`menpo.math.linalg`, whose source is not part of this repository snapshot) is,
per the spec, "an allocation-saving variant of the same matrix product, not an
additional algorithm": it computes `a · b`, storing the product in the leading
rows of `b`'s buffer and returning that view.  We model the returned value as
the plain product and the buffer left behind as the product rows followed by
the untouched remaining rows of `b`. -/
def dot_inplace_right (a b : Mat) : Mat × Mat :=
  (matMul a b, matMul a b ++ b.drop (matMul a b).length)

/-- Source lines 51-134, `pca(X, centre, inplace, eps)`, threaded with the
state of the caller's array: the result is `((U, l, m), X_after)` where
`X_after` is the value of the caller's matrix after the call (`X - m` after
the in-place mean subtraction of line 92, and in the dual regime with
`inplace` additionally the final product written into `X`'s buffer by
`dot_inplace_right` and rescaled in place by `U *= w[:, None]`).  The
eigensolver `eigh` and `np.sqrt` are opaque parameters. -/
def pcaS (eigh : Mat → List ℚ × Mat) (sq : ℚ → ℚ)
    (X : Mat) (centre inplace : Bool) (eps : ℚ) :
    Except String ((Mat × List ℚ × Vec) × Mat) :=
  let n := X.length
  let d := numCols X
  let m := meanOf X centre
  let Xc := rowsSubV X m
  if d < n then
    match eigenvalue_decomposition (eigh (pcaCov X centre)) eps with
    | .error e => .error e
    | .ok (U0, l) => .ok ((tr U0, l, m), if inplace then Xc else X)
  else
    match eigenvalue_decomposition (eigh (pcaCov X centre)) eps with
    | .error e => .error e
    | .ok (V, l) =>
      match wE sq l n with
      | .error e => .error e
      | .ok w =>
        let U := List.zipWith smulRow w
          (if inplace then (dot_inplace_right (tr V) Xc).1 else matMul (tr V) Xc)
        .ok ((U, l, m), if inplace then U ++ Xc.drop U.length else X)

/-!
Incremental PCA, `ipca` (source lines 137-225).  The external routines are
opaque parameters: `qrQt` models `np.linalg.qr(PB.T)[0].T` (line 207, the
orthonormalised projection), `svd3` models `np.linalg.svd(R)` (line 216,
returning `(U_tilde, s_tilde, Vt_tilde)`), and `sq` models `np.sqrt`.
-/

/-- Source lines 192-202, the mean update of `ipca`.  Arguments: `n_a` is the
forgetting-weighted prior sample count (`n_a * f` after line 188), `n_b` the
new-batch row count, `n = n_a + n_b`, `d` the data dimension.  When `m_a` is
present and not all-zero the new mean is `(n_a/n)*m_a + (n_b/n)*m_b` with
`m_b` the column mean of the new batch; otherwise it is the zero vector. -/
def ipcaMean (B0 : Mat) (m_a : Option Vec) (n_a n_b n : ℚ) (d : ℕ) : Vec :=
  match m_a with
  | some ma =>
    if ∀ x ∈ ma, x = 0 then zeros d
    else addV (smulRow (n_a / n) ma) (smulRow (n_b / n) (colMean B0))
  | none => zeros d

/-- Source lines 192-202, the data augmentation of `ipca`.  When `m_a` is
present and not all-zero, the batch is centred by its column mean `m_b` and
exactly one synthetic correction row `sqrt((n_a * n_b) / n) * (m_b - m_a)` is
appended (`np.vstack`); otherwise the batch is used as passed and no row is
added. -/
def ipcaAugB (sq : ℚ → ℚ) (B0 : Mat) (m_a : Option Vec) (n_a n_b n : ℚ) : Mat :=
  match m_a with
  | some ma =>
    if ∀ x ∈ ma, x = 0 then B0
    else rowsSubV B0 (colMean B0) ++
      [smulRow (sq ((n_a * n_b) / n)) (subV (colMean B0) ma)]
  | none => B0

/-- Source lines 209-213: the merge matrix
`R = hstack(vstack(f*S_a, B·U_aᵗ), vstack(0, PB·B_tildeᵗ))` with
`S_a = diag(s_a)`. -/
def ipcaRmat (f : ℚ) (s_a : List ℚ) (B PB B_tilde U_a : Mat) : Mat :=
  hstack (matScale f (diag s_a) ++ matMul B (tr U_a))
    (zerosM (diag s_a).length B_tilde.length ++ matMul PB (tr B_tilde))

/-- The intermediate quantities of `ipca` up to the merge matrix (source
lines 180-213): recovered singular values `s_a = sqrt((n_a - 1) * l_a)`, the
total weighted count `n`, the updated mean, the (possibly augmented) batch,
its projection `PB = B - (B·U_aᵗ)·U_a` orthogonal to the prior basis, and the
orthonormalised novel directions `B_tilde`. -/
structure IpcaPre where
  s_a : List ℚ
  n : ℚ
  m : Vec
  Baug : Mat
  PB : Mat
  Btilde : Mat

/-- Source lines 180-207, shared prefix of the `ipca` computation. -/
def ipcaPre (sq : ℚ → ℚ) (qrQt : Mat → Mat) (B0 U_a : Mat) (l_a : List ℚ)
    (n_a0 : ℚ) (m_a : Option Vec) (f : ℚ) : IpcaPre :=
  let s_a := l_a.map (fun x => sq ((n_a0 - 1) * x))
  let n_b : ℚ := (B0.length : ℚ)
  let d : ℕ := numCols B0
  let n_a := n_a0 * f
  let n := n_a + n_b
  let m := ipcaMean B0 m_a n_a n_b n d
  let B := ipcaAugB sq B0 m_a n_a n_b n
  let PB := matSub B (matMul (matMul B (tr U_a)) U_a)
  { s_a := s_a, n := n, m := m, Baug := B, PB := PB, Btilde := qrQt PB }

/-- The merge matrix `R` that `ipca` feeds to the SVD (source lines 209-213). -/
def ipcaR (sq : ℚ → ℚ) (qrQt : Mat → Mat) (B0 U_a : Mat) (l_a : List ℚ)
    (n_a0 : ℚ) (m_a : Option Vec) (f : ℚ) : Mat :=
  let p := ipcaPre sq qrQt B0 U_a l_a n_a0 m_a f
  ipcaRmat f p.s_a p.Baug p.PB p.Btilde U_a

/-- Source lines 137-225, `ipca(B, U_a, l_a, n_a, m_a, f, eps)`: the new
eigenvalues are `s_tilde² / (n - 1)` for the singular values `s_tilde` of the
merge matrix, kept exactly when above the absolute threshold `eps`
(`l = l[l > eps]`, line 221); the updated eigenvectors rotate the stacked
basis `[U_a; B_tilde]` by `Vt_tilde`, truncated to the retained count. -/
def ipca (sq : ℚ → ℚ) (qrQt : Mat → Mat) (svd3 : Mat → Mat × List ℚ × Mat)
    (B0 U_a : Mat) (l_a : List ℚ) (n_a0 : ℚ) (m_a : Option Vec) (f eps : ℚ) :
    Mat × List ℚ × Vec :=
  let p := ipcaPre sq qrQt B0 U_a l_a n_a0 m_a f
  let svdR := svd3 (ipcaR sq qrQt B0 U_a l_a n_a0 m_a f)
  let s_tilde := svdR.2.1
  let l := (s_tilde.map (fun s => s ^ 2 / (p.n - 1))).filter (fun x => decide (eps < x))
  let U := (matMul svdR.2.2 (U_a ++ p.Btilde)).take l.length
  (U, l, p.m)

/-- The caller-owned arrays passed to `ipca`. -/
structure IStore where
  B : Mat
  U_a : Mat
  l_a : List ℚ
  m_a : Option Vec

/-- `ipca` with the state of the caller's arrays threaded through, as `pcaS`
does for `pca`.  Unlike `pca` (whose `inplace` mode subtracts the mean into
the caller's buffer and writes the final product into it), every statement of
`ipca` either rebinds a local name (`B = B - m_b`, `n_a *= f` on a scalar) or
calls an allocating numpy operation (`np.mean`, broadcast subtraction,
`np.vstack`, `np.dot`, `np.diag`, `np.hstack`, `np.linalg.qr`,
`np.linalg.svd`, boolean-mask selection); none writes into a caller array (no
in-place operator on an array, no slice assignment, no `out=` argument), so
the translation leaves the store untouched and returns it as it was
received. -/
def ipcaS (sq : ℚ → ℚ) (qrQt : Mat → Mat) (svd3 : Mat → Mat × List ℚ × Mat)
    (st : IStore) (n_a0 : ℚ) (f eps : ℚ) : (Mat × List ℚ × Vec) × IStore :=
  (ipca sq qrQt svd3 st.B st.U_a st.l_a n_a0 st.m_a f eps, st)

/-! Helper lemmas about the eigenvalue filter. -/

theorem edFiltered_sorted (evs : List ℚ) (V : Mat) (limit : ℚ) :
    List.Sorted geOnFst (edFiltered evs V limit) := by
  unfold edFiltered
  exact List.Pairwise.sublist ((List.filter_sublist _).trans (List.filter_sublist _))
    (List.sorted_insertionSort geOnFst _)

theorem mem_edFiltered {evs : List ℚ} {V : Mat} {limit : ℚ} {p : ℚ × Vec}
    (hp : p ∈ edFiltered evs V limit) : p.1 ∈ evs ∧ 0 < p.1 ∧ limit < p.1 := by
  unfold edFiltered at hp
  rw [List.mem_filter] at hp
  obtain ⟨hp, hlim⟩ := hp
  rw [List.mem_filter] at hp
  obtain ⟨hp, hpos⟩ := hp
  rw [List.mem_insertionSort] at hp
  exact ⟨(List.of_mem_zip hp).1, of_decide_eq_true hpos, of_decide_eq_true hlim⟩

theorem length_edFiltered_le (evs : List ℚ) (V : Mat) (limit : ℚ) :
    (edFiltered evs V limit).length ≤ evs.length := by
  unfold edFiltered
  have h1 := List.length_filter_le (fun p : ℚ × Vec => decide (limit < p.1))
    (((evs.zip (tr V)).insertionSort geOnFst).filter (fun p => decide (0 < p.1)))
  have h2 := List.length_filter_le (fun p : ℚ × Vec => decide (0 < p.1))
    ((evs.zip (tr V)).insertionSort geOnFst)
  have h3 : ((evs.zip (tr V)).insertionSort geOnFst).length = (evs.zip (tr V)).length :=
    List.length_insertionSort _ _
  have h4 : (evs.zip (tr V)).length ≤ evs.length := by
    rw [List.length_zip]; exact min_le_left _ _
  exact le_trans h1 (le_trans h2 (le_trans (le_of_eq h3) h4))

theorem ed_ok_elim {evs : List ℚ} {V : Mat} {eps : ℚ} {out : Mat × List ℚ}
    (h : eigenvalue_decomposition (evs, V) eps = .ok out) :
    ∃ M, maxAbs evs = some M ∧
      out.1 = tr ((edFiltered evs V (M * eps)).map Prod.snd) ∧
      out.2 = (edFiltered evs V (M * eps)).map Prod.fst := by
  unfold eigenvalue_decomposition at h
  cases hM : maxAbs evs with
  | none => rw [hM] at h; exact absurd h (by simp)
  | some M =>
    rw [hM] at h
    simp only [Except.ok.injEq] at h
    exact ⟨M, rfl, by rw [← h], by rw [← h]⟩

/-- C2.  The claim asserts the returned eigenvalue sequence is sorted
*strictly* descending; what holds is descending (non-strict: equal
eigenvalues are returned adjacent), strictly positive, and strictly above
`max(|eigenvalues|) * eps`.  This theorem proves the amended claim. -/
theorem ed_values_sorted_pos_above_limit (evs : List ℚ) (V : Mat) (eps : ℚ)
    (out : Mat × List ℚ) (h : eigenvalue_decomposition (evs, V) eps = .ok out) :
    List.Sorted (fun a b : ℚ => b ≤ a) out.2 ∧
      ∀ x ∈ out.2, 0 < x ∧ ∃ M, maxAbs evs = some M ∧ M * eps < x := by
  obtain ⟨M, hM, -, hvals⟩ := ed_ok_elim h
  constructor
  · rw [hvals]
    have hs := edFiltered_sorted evs V (M * eps)
    exact List.pairwise_map.mpr hs
  · intro x hx
    rw [hvals, List.mem_map] at hx
    obtain ⟨p, hp, hpx⟩ := hx
    obtain ⟨-, hpos, hlim⟩ := mem_edFiltered hp
    exact ⟨hpx ▸ hpos, M, hM, hpx ▸ hlim⟩

/-- Witness for C2's theorem at a concrete eigensolver output. -/
theorem ed_values_sorted_pos_above_limit_witness :
    eigenvalue_decomposition ([2, 1], [[1, 0], [0, 1]]) (1 / 10 ^ 10) =
        .ok ([[1, 0], [0, 1]], [2, 1]) ∧
      (List.Sorted (fun a b : ℚ => b ≤ a) [2, 1] ∧
        ∀ x ∈ [(2 : ℚ), 1], 0 < x ∧
          ∃ M, maxAbs [2, 1] = some M ∧ M * (1 / 10 ^ 10) < x) := by
  have h : eigenvalue_decomposition ([2, 1], [[1, 0], [0, 1]]) (1 / 10 ^ 10) =
      .ok ([[1, 0], [0, 1]], [2, 1]) := by
    norm_num [eigenvalue_decomposition, edFiltered, maxAbs, tr, List.insertionSort,
      List.orderedInsert, geOnFst, List.filter, List.range_succ]
  exact ⟨h, ed_values_sorted_pos_above_limit [2, 1] [[1, 0], [0, 1]] (1 / 10 ^ 10)
    ([[1, 0], [0, 1]], [2, 1]) h⟩

/-- C2 counterexample.  For the symmetric matrix `C = I₂` (whose genuine
eigensystem is the repeated eigenvalue `1` with orthonormal eigenvectors, as
the last conjunct `C · V = V · diag([1,1])` records), the returned eigenvalue
sequence is `[1, 1]`: descending, but not *strictly* descending. -/
theorem ed_strict_descending_fails_on_repeated_eigenvalue :
    eigenvalue_decomposition ([1, 1], [[1, 0], [0, 1]]) (1 / 10 ^ 10) =
        .ok ([[1, 0], [0, 1]], [1, 1]) ∧
      ¬ List.Sorted (fun a b : ℚ => b < a) [1, 1] ∧
      matMul [[1, 0], [0, 1]] [[1, 0], [0, 1]] =
        matMul [[1, 0], [0, 1]] (diag [1, 1]) ∧
      tr [[(1 : ℚ), 0], [0, 1]] = [[1, 0], [0, 1]] := by
  refine ⟨?_, ?_, ?_, ?_⟩
  · norm_num [eigenvalue_decomposition, edFiltered, maxAbs, tr, List.insertionSort,
      List.orderedInsert, geOnFst, List.filter, List.range_succ]
  · simp [List.Sorted, List.pairwise_cons]
  · norm_num [matMul, diag, tr, dotV, List.range_succ]
  · norm_num [tr, List.range_succ]

/-! The dual-regime scaling (claim C7). -/

theorem wE_ok_of_pos (sq : ℚ → ℚ) {n : ℕ} (hn : 2 ≤ n) :
    ∀ l : List ℚ, (∀ x ∈ l, 0 < x) →
      wE sq l n = .ok (l.map (fun li => sq (1 / (((n : ℚ) - 1) * li)))) := by
  have hn1 : 0 < (n : ℚ) - 1 := by
    have h2 : (2 : ℚ) ≤ (n : ℚ) := by exact_mod_cast hn
    linarith
  intro l
  induction l with
  | nil => intro _; simp [wE]
  | cons li rest ih =>
    intro h
    have hpos : 0 < ((n : ℚ) - 1) * li := mul_pos hn1 (h li (by simp))
    rw [wE, if_neg (not_le.mpr hpos), ih (fun x hx => h x (by simp [hx]))]
    simp

/-- C7.  In the dual regime the scaling `w = sqrt(1 / ((n - 1) * l))` never
divides by zero and never takes the square root of a non-positive number:
every eigenvalue that `eigenvalue_decomposition` returns is strictly
positive, so with `n ≥ 2` samples the guarded computation `wE` always
succeeds — its error branch is unreachable. -/
theorem pca_dual_scaling_never_undefined (sq : ℚ → ℚ) (evs : List ℚ) (V : Mat)
    (eps : ℚ) (out : Mat × List ℚ) (n : ℕ) (hn : 2 ≤ n)
    (h : eigenvalue_decomposition (evs, V) eps = .ok out) :
    wE sq out.2 n = .ok (out.2.map (fun li => sq (1 / (((n : ℚ) - 1) * li)))) := by
  apply wE_ok_of_pos sq hn
  obtain ⟨M, hM, -, hvals⟩ := ed_ok_elim h
  intro x hx
  rw [hvals, List.mem_map] at hx
  obtain ⟨p, hp, hpx⟩ := hx
  exact hpx ▸ (mem_edFiltered hp).2.1

/-- Witness for C7's theorem at a concrete eigensolver output. -/
theorem pca_dual_scaling_never_undefined_witness :
    eigenvalue_decomposition ([1], [[1]]) (1 / 10 ^ 10) = .ok ([[1]], [1]) ∧
      2 ≤ 2 ∧ wE id [1] 2 = .ok [1] := by
  have h : eigenvalue_decomposition ([1], [[1]]) (1 / 10 ^ 10) = .ok ([[1]], [1]) := by
    norm_num [eigenvalue_decomposition, edFiltered, maxAbs, tr, List.insertionSort,
      List.orderedInsert, geOnFst, List.filter, List.range_succ]
  refine ⟨h, le_refl 2, ?_⟩
  have h2 := pca_dual_scaling_never_undefined id [1] [[1]] (1 / 10 ^ 10)
    ([[1]], [1]) 2 (le_refl 2) h
  norm_num at h2
  exact h2

/-! Zero-component results (claim C9). -/

/-- C9.  When every eigenvalue the solver produced for the covariance/Gram
matrix is non-positive or below `limit = max(|eigenvalues|) * eps`,
`eigenvalue_decomposition` returns empty sequences rather than failing, and
`pca` consequently returns a zero-component model (empty `U`, empty `l`)
rather than an error. -/
theorem ed_and_pca_zero_components_no_error
    (eigh : Mat → List ℚ × Mat) (sq : ℚ → ℚ) (X : Mat) (centre inplace : Bool)
    (eps M : ℚ)
    (hM : maxAbs (eigh (pcaCov X centre)).1 = some M)
    (hall : ∀ x ∈ (eigh (pcaCov X centre)).1, x ≤ 0 ∨ x ≤ M * eps) :
    eigenvalue_decomposition (eigh (pcaCov X centre)) eps = .ok ([], []) ∧
      ∃ m Xa, pcaS eigh sq X centre inplace eps =
        .ok ((([] : Mat), ([] : List ℚ), m), Xa) := by
  have hkept : edFiltered (eigh (pcaCov X centre)).1 (eigh (pcaCov X centre)).2
      (M * eps) = [] := by
    rw [List.eq_nil_iff_forall_not_mem]
    intro p hp
    obtain ⟨hmem, hpos, hlim⟩ := mem_edFiltered hp
    rcases hall p.1 hmem with h | h
    · exact absurd hpos (not_lt.mpr h)
    · exact absurd hlim (not_lt.mpr h)
  have hed : eigenvalue_decomposition (eigh (pcaCov X centre)) eps = .ok ([], []) := by
    unfold eigenvalue_decomposition
    rw [hM]
    simp [hkept, tr]
  refine ⟨hed, ?_⟩
  by_cases hdn : numCols X < X.length
  · exact ⟨meanOf X centre, if inplace then rowsSubV X (meanOf X centre) else X,
      by simp only [pcaS, if_pos hdn, hed]; rfl⟩
  · refine ⟨meanOf X centre,
      if inplace then [] ++ (rowsSubV X (meanOf X centre)).drop 0 else X, ?_⟩
    simp only [pcaS, if_neg hdn, hed]
    have hw : wE sq ([] : List ℚ) X.length = .ok [] := by simp [wE]
    rw [hw]
    simp

/-- Witness for C9's theorem: a 2x1 all-zero data matrix whose covariance is
the 1x1 zero matrix, with its genuine eigensystem `([0], [[1]])`. -/
theorem ed_and_pca_zero_components_no_error_witness :
    maxAbs ((fun _ : Mat => ([(0 : ℚ)], [[(1 : ℚ)]])) (pcaCov [[0], [0]] false)).1 =
        some 0 ∧
      eigenvalue_decomposition
          ((fun _ : Mat => ([(0 : ℚ)], [[(1 : ℚ)]])) (pcaCov [[0], [0]] false))
          (1 / 10 ^ 10) = .ok ([], []) ∧
      ∃ m Xa, pcaS (fun _ : Mat => ([(0 : ℚ)], [[(1 : ℚ)]])) id [[0], [0]] false false
          (1 / 10 ^ 10) = .ok ((([] : Mat), ([] : List ℚ), m), Xa) := by
  have hM : maxAbs ((fun _ : Mat => ([(0 : ℚ)], [[(1 : ℚ)]]))
      (pcaCov [[0], [0]] false)).1 = some 0 := by norm_num [maxAbs]
  have h := ed_and_pca_zero_components_no_error
    (fun _ : Mat => ([(0 : ℚ)], [[(1 : ℚ)]])) id [[0], [0]] false false
    (1 / 10 ^ 10) 0 hM (by norm_num)
  exact ⟨hM, h.1, h.2⟩

/-! Malformed input (claim C3). -/

/-- C3 counterexample.  A one-sample data matrix (`n = 1 < 2`) does not make
`pca` signal an error: no shape validation exists, the division by
`n - 1 = 0` produces junk (non-finite values in numpy, the rational junk
value `0` here, as the `pcaCov` conjunct shows), the solver's output on that
junk matrix is filtered away, and `pca` returns a degenerate zero-component
triple.  The concrete eigensolver output `([0], [[1]])` used here is the
genuine eigensystem of the junk covariance `[[0]]`. -/
theorem pca_single_sample_returns_triple :
    pcaS (fun _ => ([0], [[1]])) id [[1, 2]] true false (1 / 10 ^ 10) =
        .ok ((([] : Mat), ([] : List ℚ), [1, 2]), [[1, 2]]) ∧
      pcaCov [[1, 2]] true = [[0]] := by
  constructor
  · norm_num [pcaS, pcaCov, meanOf, colMean, colSum, numCols, rowsSubV, subV, addV,
      matMul, matScale, matAdd, smulRow, dotV, tr, zeros, eigenvalue_decomposition,
      edFiltered, maxAbs, List.insertionSort, List.orderedInsert, geOnFst, List.filter,
      wE, List.range_succ]
  · norm_num [pcaCov, meanOf, colMean, colSum, numCols, rowsSubV, subV, addV, matMul,
      matScale, matAdd, smulRow, dotV, tr, List.range_succ]

/-- C3 amended.  For the empty data matrix `pca` does signal an error (not by
up-front validation: the `np.max` reduction over the empty eigenvalue array
inside `eigenvalue_decomposition` raises), for any eigensolver that returns
one eigenvalue per row of its input. -/
theorem pca_empty_matrix_errors (eigh : Mat → List ℚ × Mat) (sq : ℚ → ℚ)
    (centre inplace : Bool) (eps : ℚ)
    (hlen : ∀ M, (eigh M).1.length = M.length) :
    pcaS eigh sq ([] : Mat) centre inplace eps =
      .error "zero-size array to reduction operation maximum" := by
  have hc : pcaCov [] centre = [] := rfl
  have hnil : (eigh (pcaCov [] centre)).1 = [] := by
    have hl := hlen (pcaCov [] centre)
    rw [hc] at hl
    exact List.eq_nil_of_length_eq_zero hl
  have hed : eigenvalue_decomposition (eigh (pcaCov [] centre)) eps =
      .error "zero-size array to reduction operation maximum" := by
    unfold eigenvalue_decomposition
    rw [hnil]
    rfl
  simp only [pcaS, numCols, List.length_nil, hed]
  rfl

/-- Witness for C3's amended theorem at a concrete eigensolver. -/
theorem pca_empty_matrix_errors_witness :
    (∀ M : Mat, ((fun N : Mat => (N.map (fun _ => (0 : ℚ)), N)) M).1.length =
        M.length) ∧
      pcaS (fun N : Mat => (N.map (fun _ => (0 : ℚ)), N)) id ([] : Mat) true false
          (1 / 10 ^ 10) =
        .error "zero-size array to reduction operation maximum" := by
  have hlen : ∀ M : Mat, ((fun N : Mat => (N.map (fun _ => (0 : ℚ)), N)) M).1.length =
      M.length := by intro M; simp
  exact ⟨hlen, pca_empty_matrix_errors _ id true false (1 / 10 ^ 10) hlen⟩

/-! In-place versus copy (claim C5). -/

/-- C5.  `pca(X.copy(), inplace=False)` and `pca(X, inplace=True)` return the
same `(U, l, m)` triple (the `inplace` flag only changes where intermediate
results are stored); the caller's matrix is unchanged by the
`inplace=False` call; and after a successful `inplace=True` call the
caller's matrix holds exactly the mean-subtracted data (primal regime), or
the final in-place product written into its leading rows over the
mean-subtracted data (dual regime). -/
theorem pca_inplace_copy_equivalence (eigh : Mat → List ℚ × Mat) (sq : ℚ → ℚ)
    (X : Mat) (centre : Bool) (eps : ℚ) :
    (pcaS eigh sq X centre true eps).map Prod.fst =
        (pcaS eigh sq X centre false eps).map Prod.fst ∧
      (∀ t Xa, pcaS eigh sq X centre false eps = .ok (t, Xa) → Xa = X) ∧
      (∀ U l m Xa, pcaS eigh sq X centre true eps = .ok ((U, l, m), Xa) →
        Xa = if numCols X < X.length then rowsSubV X m
             else U ++ (rowsSubV X m).drop U.length) := by
  refine ⟨?_, ?_, ?_⟩
  · by_cases hdn : numCols X < X.length
    · simp only [pcaS, if_pos hdn]
      split
      · rfl
      · rfl
    · simp only [pcaS, if_neg hdn]
      split
      · rfl
      · split
        · rfl
        · rfl
  · intro t Xa h
    by_cases hdn : numCols X < X.length
    · simp only [pcaS, if_pos hdn] at h
      split at h
      · simp at h
      · injection h with h1
        cases h1
        rfl
    · simp only [pcaS, if_neg hdn] at h
      split at h
      · simp at h
      · split at h
        · simp at h
        · injection h with h1
          cases h1
          rfl
  · intro U l m Xa h
    by_cases hdn : numCols X < X.length
    · simp only [pcaS, if_pos hdn] at h
      split at h
      · simp at h
      · simp only [Except.ok.injEq, Prod.mk.injEq] at h
        obtain ⟨⟨-, -, hm⟩, hXa⟩ := h
        subst hm
        subst hXa
        rw [if_pos hdn]
        rfl
    · simp only [pcaS, if_neg hdn] at h
      split at h
      · simp at h
      · split at h
        · simp at h
        · simp only [Except.ok.injEq, Prod.mk.injEq] at h
          obtain ⟨⟨hU, -, hm⟩, hXa⟩ := h
          subst hm
          subst hU
          subst hXa
          rw [if_neg hdn]
          rfl

/-- Witness for C5's theorem at a concrete run (2x1 data, primal regime). -/
theorem pca_inplace_copy_equivalence_witness :
    pcaS (fun _ => ([2], [[1]])) id [[1], [3]] true false (1 / 10 ^ 10) =
        .ok (([[1]], [2], [2]), [[1], [3]]) ∧
      pcaS (fun _ => ([2], [[1]])) id [[1], [3]] true true (1 / 10 ^ 10) =
        .ok (([[1]], [2], [2]), [[-1], [1]]) ∧
      (pcaS (fun _ => ([2], [[1]])) id [[1], [3]] true true (1 / 10 ^ 10)).map
          Prod.fst =
        (pcaS (fun _ => ([2], [[1]])) id [[1], [3]] true false (1 / 10 ^ 10)).map
          Prod.fst ∧
      ([[1], [3]] : Mat) = [[1], [3]] ∧
      ([[-1], [1]] : Mat) =
        if numCols [[1], [3]] < [[(1 : ℚ)], [3]].length then rowsSubV [[1], [3]] [2]
        else [[1]] ++ (rowsSubV [[1], [3]] [2]).drop [[(1 : ℚ)]].length := by
  have hf : pcaS (fun _ => ([2], [[1]])) id [[1], [3]] true false (1 / 10 ^ 10) =
      .ok (([[1]], [2], [2]), [[1], [3]]) := by
    norm_num [pcaS, pcaCov, meanOf, colMean, colSum, numCols, rowsSubV, subV, addV,
      matMul, matScale, matAdd, smulRow, dotV, tr, zeros, eigenvalue_decomposition,
      edFiltered, maxAbs, List.insertionSort, List.orderedInsert, geOnFst, List.filter,
      wE, List.range_succ]
  have ht : pcaS (fun _ => ([2], [[1]])) id [[1], [3]] true true (1 / 10 ^ 10) =
      .ok (([[1]], [2], [2]), [[-1], [1]]) := by
    norm_num [pcaS, pcaCov, meanOf, colMean, colSum, numCols, rowsSubV, subV, addV,
      matMul, matScale, matAdd, smulRow, dotV, tr, zeros, eigenvalue_decomposition,
      edFiltered, maxAbs, List.insertionSort, List.orderedInsert, geOnFst, List.filter,
      wE, List.range_succ]
  refine ⟨hf, ht,
    (pca_inplace_copy_equivalence (fun _ => ([2], [[1]])) id [[1], [3]] true
      (1 / 10 ^ 10)).1,
    (pca_inplace_copy_equivalence (fun _ => ([2], [[1]])) id [[1], [3]] true
      (1 / 10 ^ 10)).2.1 _ _ hf,
    (pca_inplace_copy_equivalence (fun _ => ([2], [[1]])) id [[1], [3]] true
      (1 / 10 ^ 10)).2.2 _ _ _ _ ht⟩

/-! Shape lemmas used for the component-count bound (claim C8). -/

theorem length_tr (M : Mat) : (tr M).length = numCols M := by
  cases M <;> simp [tr, numCols]

theorem mem_tr_row_length {M : Mat} {row : Vec} (h : row ∈ tr M) :
    row.length = M.length := by
  cases M with
  | nil => simp [tr] at h
  | cons r rest =>
    simp only [tr, List.mem_map, List.mem_range] at h
    obtain ⟨j, -, hj⟩ := h
    rw [← hj, List.length_map]

theorem numCols_tr_of_rows {W : Mat} {N : ℕ} (hN : 0 < N)
    (hrows : ∀ r ∈ W, r.length = N) : numCols (tr W) = W.length := by
  cases W with
  | nil => simp [tr, numCols]
  | cons r rest =>
    have hr : r.length = N := hrows r (by simp)
    simp only [tr, numCols]
    rw [hr]
    cases N with
    | zero => exact absurd hN (by simp)
    | succ k => simp [List.range_succ_eq_map]

theorem length_tr_tr {W : Mat} {N : ℕ} (hN : 0 < N)
    (hrows : ∀ r ∈ W, r.length = N) : (tr (tr W)).length = W.length := by
  rw [length_tr, numCols_tr_of_rows hN hrows]

theorem matMul_length (A B : Mat) : (matMul A B).length = A.length := by
  simp [matMul]

theorem matScale_length (c : ℚ) (M : Mat) : (matScale c M).length = M.length := by
  simp [matScale]

theorem matAdd_length (A B : Mat) : (matAdd A B).length = min A.length B.length := by
  unfold matAdd
  rw [List.length_zipWith]

theorem rowsSubV_length (M : Mat) (v : Vec) : (rowsSubV M v).length = M.length := by
  simp [rowsSubV]

theorem numCols_rowsSubV_le (M : Mat) (v : Vec) :
    numCols (rowsSubV M v) ≤ numCols M := by
  cases M with
  | nil => simp [rowsSubV, numCols]
  | cons r rest =>
    show (subV r v).length ≤ r.length
    rw [subV, List.length_zipWith]
    exact min_le_left _ _

theorem pcaCov_length_le_primal {X : Mat} {centre : Bool}
    (hdn : numCols X < X.length) : (pcaCov X centre).length ≤ numCols X := by
  simp only [pcaCov]
  rw [if_pos hdn]
  rw [matScale_length, matAdd_length, matScale_length, matMul_length, length_tr]
  exact le_trans (min_le_left _ _) (numCols_rowsSubV_le X (meanOf X centre))

theorem pcaCov_length_le_dual {X : Mat} {centre : Bool}
    (hdn : ¬ numCols X < X.length) : (pcaCov X centre).length ≤ X.length := by
  simp only [pcaCov]
  rw [if_neg hdn]
  rw [matScale_length, matAdd_length, matScale_length, matMul_length, rowsSubV_length]
  exact min_le_left _ _

theorem maxAbs_some_ne_nil {evs : List ℚ} {M : ℚ} (h : maxAbs evs = some M) :
    evs ≠ [] := by
  intro hnil
  rw [hnil] at h
  simp [maxAbs] at h

theorem wE_ok_length {sq : ℚ → ℚ} {n : ℕ} :
    ∀ {l w : List ℚ}, wE sq l n = .ok w → w.length = l.length := by
  intro l
  induction l with
  | nil => intro w h; simp only [wE, Except.ok.injEq] at h; rw [← h]
  | cons li rest ih =>
    intro w h
    rw [wE] at h
    split at h
    · exact absurd h (by simp)
    · split at h
      · exact absurd h (by simp)
      · next ws hrec =>
        simp only [Except.ok.injEq] at h
        rw [← h, List.length_cons, ih hrec, List.length_cons]

theorem mem_edFiltered_snd {evs : List ℚ} {V : Mat} {limit : ℚ} {p : ℚ × Vec}
    (hp : p ∈ edFiltered evs V limit) : p.2 ∈ tr V := by
  unfold edFiltered at hp
  rw [List.mem_filter] at hp
  rw [List.mem_filter] at hp
  have hmem := hp.1.1
  rw [List.mem_insertionSort] at hmem
  exact (List.of_mem_zip hmem).2

/-- C8 (amended).  For every successful `pca` run, with an eigensolver that
returns one eigenvalue and one eigenvector matrix of matching size per input
row: in the primal regime (`d < n`) the component count obeys
`n_components ≤ min(n_samples - 1, n_dims)`; in the dual regime it obeys
`n_components ≤ min(n_samples, n_dims)`.  (The claim's stricter
`n_samples - 1` bound fails in the dual regime for uncentred data, see the
counterexample.)  In both regimes `U` has exactly one row per eigenvalue. -/
theorem pca_components_bound (eigh : Mat → List ℚ × Mat) (sq : ℚ → ℚ)
    (X : Mat) (centre inplace : Bool) (eps : ℚ) (U : Mat) (l : List ℚ) (m : Vec)
    (Xa : Mat)
    (heigh : ∀ M, (eigh M).1.length = M.length)
    (heighV : ∀ M, (eigh M).2.length = M.length)
    (hok : pcaS eigh sq X centre inplace eps = .ok ((U, l, m), Xa)) :
    (l.length ≤ if numCols X < X.length then min (X.length - 1) (numCols X)
      else min X.length (numCols X)) ∧ U.length = l.length := by
  by_cases hdn : numCols X < X.length
  · simp only [pcaS, if_pos hdn] at hok
    split at hok
    · simp at hok
    · rename_i U0 l0 heq
      simp only [Except.ok.injEq, Prod.mk.injEq] at hok
      obtain ⟨⟨hU, hl, -⟩, -⟩ := hok
      obtain ⟨M, hM, hU0, hl0⟩ := ed_ok_elim heq
      dsimp only at hU0 hl0
      have hevs_len := heigh (pcaCov X centre)
      have hlen : l.length ≤ numCols X := by
        rw [← hl, hl0, List.length_map]
        exact le_trans (le_trans (length_edFiltered_le _ _ _) (le_of_eq hevs_len))
          (pcaCov_length_le_primal hdn)
      have hNpos : 0 < (eigh (pcaCov X centre)).2.length := by
        rw [heighV (pcaCov X centre), ← hevs_len]
        exact List.length_pos.mpr (maxAbs_some_ne_nil hM)
      have hrows : ∀ r ∈ (edFiltered (eigh (pcaCov X centre)).1
          (eigh (pcaCov X centre)).2 (M * eps)).map Prod.snd,
          r.length = (eigh (pcaCov X centre)).2.length := by
        intro r hr
        rw [List.mem_map] at hr
        obtain ⟨p, hp, hpr⟩ := hr
        exact hpr ▸ mem_tr_row_length (mem_edFiltered_snd hp)
      constructor
      · rw [if_pos hdn]
        exact le_min (le_trans hlen (by omega)) hlen
      · rw [← hU, hU0, length_tr_tr hNpos hrows, List.length_map, ← hl, hl0,
          List.length_map]
  · simp only [pcaS, if_neg hdn] at hok
    split at hok
    · simp at hok
    · rename_i V1 l0 heq
      split at hok
      · simp at hok
      · rename_i w hw
        simp only [Except.ok.injEq, Prod.mk.injEq] at hok
        obtain ⟨⟨hU, hl, -⟩, -⟩ := hok
        obtain ⟨M, hM, hV1, hl0⟩ := ed_ok_elim heq
        dsimp only at hV1 hl0
        have hevs_len := heigh (pcaCov X centre)
        have hlen : l.length ≤ X.length := by
          rw [← hl, hl0, List.length_map]
          exact le_trans (le_trans (length_edFiltered_le _ _ _) (le_of_eq hevs_len))
            (pcaCov_length_le_dual hdn)
        have hNpos : 0 < (eigh (pcaCov X centre)).2.length := by
          rw [heighV (pcaCov X centre), ← hevs_len]
          exact List.length_pos.mpr (maxAbs_some_ne_nil hM)
        have hrows : ∀ r ∈ (edFiltered (eigh (pcaCov X centre)).1
            (eigh (pcaCov X centre)).2 (M * eps)).map Prod.snd,
            r.length = (eigh (pcaCov X centre)).2.length := by
          intro r hr
          rw [List.mem_map] at hr
          obtain ⟨p, hp, hpr⟩ := hr
          exact hpr ▸ mem_tr_row_length (mem_edFiltered_snd hp)
        have hPm : (matMul (tr V1) (rowsSubV X (meanOf X centre))).length =
            l0.length := by
          rw [matMul_length, length_tr, hV1, numCols_tr_of_rows hNpos hrows,
            List.length_map, hl0, List.length_map]
        have hmin : min l0.length
            (matMul (tr V1) (rowsSubV X (meanOf X centre))).length = l0.length := by
          rw [hPm, min_self]
        constructor
        · rw [if_neg hdn]
          exact le_min hlen (le_trans hlen (by omega))
        · rw [← hU, List.length_zipWith, wE_ok_length hw, ← hl]
          cases inplace <;> exact hmin

/-- Witness for C8's amended theorem at a concrete run. -/
theorem pca_components_bound_witness :
    (∀ M : Mat,
        ((fun N : Mat => (N.map (fun _ => (0 : ℚ)), N.map (fun _ => ([] : Vec)))) M).1.length =
          M.length) ∧
      (∀ M : Mat,
        ((fun N : Mat => (N.map (fun _ => (0 : ℚ)), N.map (fun _ => ([] : Vec)))) M).2.length =
          M.length) ∧
      pcaS (fun N : Mat => (N.map (fun _ => (0 : ℚ)), N.map (fun _ => ([] : Vec)))) id
          [[1], [2], [3]] false false (1 / 10 ^ 10) =
        .ok ((([] : Mat), ([] : List ℚ), [0]), [[1], [2], [3]]) ∧
      ((([] : List ℚ).length ≤
          if numCols [[1], [2], [3]] < [[(1 : ℚ)], [2], [3]].length then
            min ([[(1 : ℚ)], [2], [3]].length - 1) (numCols [[1], [2], [3]])
          else min [[(1 : ℚ)], [2], [3]].length (numCols [[1], [2], [3]])) ∧
        ([] : Mat).length = ([] : List ℚ).length) := by
  have hlen1 : ∀ M : Mat,
      ((fun N : Mat => (N.map (fun _ => (0 : ℚ)), N.map (fun _ => ([] : Vec)))) M).1.length =
        M.length := by intro M; simp
  have hlen2 : ∀ M : Mat,
      ((fun N : Mat => (N.map (fun _ => (0 : ℚ)), N.map (fun _ => ([] : Vec)))) M).2.length =
        M.length := by intro M; simp
  have hok : pcaS (fun N : Mat => (N.map (fun _ => (0 : ℚ)), N.map (fun _ => ([] : Vec)))) id
      [[1], [2], [3]] false false (1 / 10 ^ 10) =
      .ok ((([] : Mat), ([] : List ℚ), [0]), [[1], [2], [3]]) := by
    norm_num [pcaS, pcaCov, meanOf, colMean, colSum, numCols, rowsSubV, subV, addV,
      matMul, matScale, matAdd, smulRow, dotV, tr, zeros, eigenvalue_decomposition,
      edFiltered, maxAbs, List.insertionSort, List.orderedInsert, geOnFst, List.filter,
      wE, List.range_succ, List.replicate]
  exact ⟨hlen1, hlen2, hok,
    pca_components_bound _ id [[1], [2], [3]] false false (1 / 10 ^ 10) _ _ _ _
      hlen1 hlen2 hok⟩

/-- C8 counterexample.  An uncentred dual-regime run on the 2x2 identity
matrix: the Gram matrix is `I₂` itself (second conjunct), whose genuine
eigensystem is eigenvalue `1` twice with orthonormal eigenvectors (third
conjunct `C · V = V · diag([1,1])`), and `pca` returns 2 components —
exceeding the claimed bound `min(n_samples - 1, n_dims) = 1` (last
conjunct). -/
theorem pca_components_bound_fails_uncentred_dual :
    pcaS (fun _ => ([1, 1], [[1, 0], [0, 1]])) id [[1, 0], [0, 1]] false false
        (1 / 10 ^ 10) =
      .ok (([[1, 0], [0, 1]], [1, 1], [0, 0]), [[1, 0], [0, 1]]) ∧
      pcaCov [[1, 0], [0, 1]] false = [[1, 0], [0, 1]] ∧
      matMul [[1, 0], [0, 1]] [[1, 0], [0, 1]] =
        matMul [[1, 0], [0, 1]] (diag [1, 1]) ∧
      ¬ ([(1 : ℚ), 1].length ≤
          min ([[(1 : ℚ), 0], [0, 1]].length - 1) (numCols [[1, 0], [0, 1]])) := by
  refine ⟨?_, ?_, ?_, ?_⟩
  · norm_num [pcaS, pcaCov, meanOf, colMean, colSum, numCols, rowsSubV, subV, addV,
      matMul, matScale, matAdd, smulRow, dotV, tr, zeros, eigenvalue_decomposition,
      edFiltered, maxAbs, List.insertionSort, List.orderedInsert, geOnFst, List.filter,
      wE, List.range_succ, List.replicate]
  · norm_num [pcaCov, meanOf, colMean, colSum, numCols, rowsSubV, subV, addV, matMul,
      matScale, matAdd, smulRow, dotV, tr, zeros, List.range_succ, List.replicate]
  · norm_num [matMul, diag, tr, dotV, List.range_succ]
  · norm_num [numCols]

/-- C6.  The eigenvalues `ipca` returns are exactly the squared singular
values of the merge matrix `R` divided by `n - 1`, filtered by the absolute
threshold `eps` alone — not by the relative limit
`max(|eigenvalues|) * eps` that `eigenvalue_decomposition` uses. -/
theorem ipca_absolute_eps_filter (sq : ℚ → ℚ) (qrQt : Mat → Mat)
    (svd3 : Mat → Mat × List ℚ × Mat) (B0 U_a : Mat) (l_a : List ℚ)
    (n_a0 : ℚ) (m_a : Option Vec) (f eps : ℚ) :
    (ipca sq qrQt svd3 B0 U_a l_a n_a0 m_a f eps).2.1 =
      ((svd3 (ipcaR sq qrQt B0 U_a l_a n_a0 m_a f)).2.1.map
        (fun s => s ^ 2 / ((n_a0 * f + (B0.length : ℚ)) - 1))).filter
        (fun x => decide (eps < x)) := rfl

/-- C4.  The mean and augmentation behaviour of `ipca`: when `m_a` is present
and not all-zero, the returned mean is
`(n_a'/n)·m_a + (n_b/n)·m_b` with `n_a' = n_a·f`, `n = n_a' + n_b`, `m_b`
the column mean of `B`; and the batch used downstream is `B` centred by `m_b`
with exactly one appended correction row `sqrt(n_a'·n_b/n)·(m_b − m_a)`.
When `m_a` is absent or all-zero, the returned mean is the zero vector and
the batch is used unaugmented. -/
theorem ipca_mean_and_correction_row (sq : ℚ → ℚ) (qrQt : Mat → Mat)
    (svd3 : Mat → Mat × List ℚ × Mat) (B0 U_a : Mat) (l_a : List ℚ)
    (n_a0 f eps : ℚ) :
    (∀ ma : Vec, ¬ (∀ x ∈ ma, x = 0) →
      (ipca sq qrQt svd3 B0 U_a l_a n_a0 (some ma) f eps).2.2 =
          addV (smulRow ((n_a0 * f) / (n_a0 * f + (B0.length : ℚ))) ma)
            (smulRow ((B0.length : ℚ) / (n_a0 * f + (B0.length : ℚ)))
              (colMean B0)) ∧
        ipcaAugB sq B0 (some ma) (n_a0 * f) (B0.length : ℚ)
            (n_a0 * f + (B0.length : ℚ)) =
          rowsSubV B0 (colMean B0) ++
            [smulRow (sq (n_a0 * f * (B0.length : ℚ) / (n_a0 * f + (B0.length : ℚ))))
              (subV (colMean B0) ma)]) ∧
    (∀ m_a : Option Vec, (m_a = none ∨ ∃ ma, m_a = some ma ∧ ∀ x ∈ ma, x = 0) →
      (ipca sq qrQt svd3 B0 U_a l_a n_a0 m_a f eps).2.2 = zeros (numCols B0) ∧
        ipcaAugB sq B0 m_a (n_a0 * f) (B0.length : ℚ)
          (n_a0 * f + (B0.length : ℚ)) = B0) := by
  constructor
  · intro ma hma
    constructor
    · show ipcaMean B0 (some ma) (n_a0 * f) (B0.length : ℚ)
        (n_a0 * f + (B0.length : ℚ)) (numCols B0) = _
      rw [ipcaMean, if_neg hma]
    · rw [ipcaAugB, if_neg hma]
  · intro m_a hm
    rcases hm with rfl | ⟨ma, rfl, hz⟩
    · exact ⟨rfl, rfl⟩
    · constructor
      · show ipcaMean B0 (some ma) (n_a0 * f) (B0.length : ℚ)
          (n_a0 * f + (B0.length : ℚ)) (numCols B0) = _
        rw [ipcaMean, if_pos hz]
      · rw [ipcaAugB, if_pos hz]

/-- Witness for C4's theorem at concrete inputs (both branches). -/
theorem ipca_mean_and_correction_row_witness :
    (¬ (∀ x ∈ [(1 : ℚ)], x = 0)) ∧
      (ipca id (fun _ => []) (fun _ => ([], [], [])) [[2]] [[1]] [1] 3 (some [1]) 1
          (1 / 10 ^ 10)).2.2 = [5 / 4] ∧
      ipcaAugB id [[2]] (some [1]) (3 * 1) ([[(2 : ℚ)]].length : ℚ)
          (3 * 1 + ([[(2 : ℚ)]].length : ℚ)) = [[0], [3 / 4]] ∧
      (ipca id (fun _ => []) (fun _ => ([], [], [])) [[2]] [[1]] [1] 3 none 1
          (1 / 10 ^ 10)).2.2 = [0] ∧
      ipcaAugB id [[2]] none (3 * 1) ([[(2 : ℚ)]].length : ℚ)
          (3 * 1 + ([[(2 : ℚ)]].length : ℚ)) = [[2]] := by
  have hma : ¬ (∀ x ∈ [(1 : ℚ)], x = 0) := by simp
  have h := (ipca_mean_and_correction_row id (fun _ => []) (fun _ => ([], [], []))
    [[2]] [[1]] [1] 3 1 (1 / 10 ^ 10)).1 [1] hma
  have h0 := (ipca_mean_and_correction_row id (fun _ => []) (fun _ => ([], [], []))
    [[2]] [[1]] [1] 3 1 (1 / 10 ^ 10)).2 none (Or.inl rfl)
  refine ⟨hma, ?_, ?_, ?_, h0.2⟩
  · rw [h.1]
    norm_num [addV, smulRow, colMean, colSum]
  · rw [h.2]
    norm_num [rowsSubV, subV, smulRow, colMean, colSum]
  · rw [h0.1]
    norm_num [zeros, numCols, List.replicate]

/-- C10.  `ipca` mutates none of the caller-supplied arrays `B`, `U_a`,
`l_a`, `m_a`: the store after the call is the store before it, and the
result is computed purely from the received values. -/
theorem ipca_preserves_caller_arrays (sq : ℚ → ℚ) (qrQt : Mat → Mat)
    (svd3 : Mat → Mat × List ℚ × Mat) (st : IStore) (n_a0 f eps : ℚ) :
    (ipcaS sq qrQt svd3 st n_a0 f eps).2 = st ∧
      (ipcaS sq qrQt svd3 st n_a0 f eps).1 =
        ipca sq qrQt svd3 st.B st.U_a st.l_a n_a0 st.m_a f eps :=
  ⟨rfl, rfl⟩

end Menpo
